import Mathlib

/-!
# blockchain-go, `simple-version/main.go`

A shallow embedding of the block and chain operations of `main.go`
(`Block.SetHash`, `NewBlock`, `Blockchain.AddBlock`, `NewGenesisBlock`,
`NewBlockchain`) together with the three library functions the program calls:
`strconv.FormatInt`, `bytes.Join` and `sha256.Sum256`.

Conventions of the embedding:

* a Go `[]byte` is a `List byte`; a Go `string` is the list of its bytes, so
  the conversion `[]byte(data)` is the identity on that list;
* an `int64` is an integer between `math.MinInt64` and `math.MaxInt64`;
* `time.Now().Unix()` is an explicit argument `now : int64` of every function
  that reads the clock;
* an entry of `blocks []*Block` is `some b` for a pointer to the record `b` and
  `none` for the nil pointer, whose dereference is the panic `nilDereference`;
  `NewBlock` returns `&Block{...}`, never nil, so its result is a plain `Block`;
* a run-time panic is an `Except.error` carrying a `RuntimeError`.
-/

namespace SimpleVersion

/-! ## Basic types -/

/-- Go's `byte`. -/
abbrev byte := UInt8

/-- The bytes of a string literal of the source file (UTF-8, as Go stores it). -/
def bytesOfString (s : String) : List byte := s.toUTF8.data.toList

/-- The value `math.MinInt64`. -/
def minInt64 : Int := -9223372036854775808

/-- The value `math.MaxInt64`. -/
def maxInt64 : Int := 9223372036854775807

/-- Go's `int64`: the integers from `math.MinInt64` to `math.MaxInt64`. -/
abbrev int64 := { i : Int // minInt64 ≤ i ∧ i ≤ maxInt64 }

/-- The conversion `uint64(i)` of an `int64`: the value modulo `2^64`. -/
def uint64OfInt64 (i : int64) : Nat := (i.val % 18446744073709551616).toNat

/-- Panics of the Go runtime that the program can raise. -/
inductive RuntimeError where
  | indexOutOfRange (index : Int) (length : Nat)
  | nilDereference
deriving DecidableEq, Repr

/-! ## `strconv.FormatInt(i, 10)` (Go standard library, `strconv/itoa.go`) -/

/-- The constant `digits` of `strconv`. -/
def digits : List byte := bytesOfString "0123456789abcdefghijklmnopqrstuvwxyz"

/-- The constant `nSmalls` of `strconv`. -/
def nSmalls : Int := 100

/-- The constant `smallsString` of `strconv`: the two-digit forms of 0..99. -/
def smallsString : List byte := bytesOfString
  ("00010203040506070809" ++
   "10111213141516171819" ++
   "20212223242526272829" ++
   "30313233343536373839" ++
   "40414243444546474849" ++
   "50515253545556575859" ++
   "60616263646566676869" ++
   "70717273747576777879" ++
   "80818283848586878889" ++
   "90919293949596979899")

/-- The function `small` of `strconv`: the string of an `i` with `0 ≤ i < nSmalls`. -/
def small (i : Nat) : List byte :=
  if i < 10 then (digits.drop i).take 1
  else (smallsString.drop (i * 2)).take 2

/-- The loop `for us >= 100 { ... }` of `formatBits` in base 10. The buffer
suffix `a[i:]` is the list `a`; each iteration writes two bytes in front of it.
The first argument bounds the number of iterations (the buffer of 65 bytes
leaves room for 32 of them). Returns the remaining `us` and the buffer. -/
def formatLoop : Nat → Nat → List byte → Nat × List byte
  | 0, us, a => (us, a)
  | fuel + 1, us, a =>
    if us ≥ 100 then
      let is := us % 100 * 2
      formatLoop fuel (us / 100) (smallsString.getD is 0 :: smallsString.getD (is + 1) 0 :: a)
    else (us, a)

/-- The function `formatBits` of `strconv` for `base == 10` on a 64-bit host,
returning the string `s` (`append_ == false`). `u` is a `uint64`, so the
negation `u = -u` wraps modulo `2^64`. -/
def formatBits (u : Nat) (neg : Bool) : List byte :=
  let u := if neg then (18446744073709551616 - u) % 18446744073709551616 else u
  let r := formatLoop 32 u []
  let us := r.1
  let is := us * 2
  let a := smallsString.getD (is + 1) 0 :: r.2
  let a := if us ≥ 10 then smallsString.getD is 0 :: a else a
  if neg then 45 :: a else a

/-- The call `strconv.FormatInt(i, 10)`. -/
def FormatInt (i : int64) : List byte :=
  if 0 ≤ i.val ∧ i.val < nSmalls then small i.val.toNat
  else formatBits (uint64OfInt64 i) (decide (i.val < 0))

/-! ## `bytes.Join` (Go standard library, `bytes/bytes.go`) -/

/-- The call `bytes.Join(s, sep)`: the elements of `s` with `sep` between them. -/
def Join (s : List (List byte)) (sep : List byte) : List byte :=
  match s with
  | [] => []
  | [v] => v
  | v :: rest => rest.foldl (fun b w => b ++ sep ++ w) v

/-! ## `sha256.Sum256` (Go standard library, `crypto/sha256`; FIPS 180-4) -/

namespace sha256

/-- The round constants `_K`. -/
def K : List Nat := [
  0x428a2f98, 0x71374491, 0xb5c0fbcf, 0xe9b5dba5, 0x3956c25b, 0x59f111f1, 0x923f82a4, 0xab1c5ed5,
  0xd807aa98, 0x12835b01, 0x243185be, 0x550c7dc3, 0x72be5d74, 0x80deb1fe, 0x9bdc06a7, 0xc19bf174,
  0xe49b69c1, 0xefbe4786, 0x0fc19dc6, 0x240ca1cc, 0x2de92c6f, 0x4a7484aa, 0x5cb0a9dc, 0x76f988da,
  0x983e5152, 0xa831c66d, 0xb00327c8, 0xbf597fc7, 0xc6e00bf3, 0xd5a79147, 0x06ca6351, 0x14292967,
  0x27b70a85, 0x2e1b2138, 0x4d2c6dfc, 0x53380d13, 0x650a7354, 0x766a0abb, 0x81c2c92e, 0x92722c85,
  0xa2bfe8a1, 0xa81a664b, 0xc24b8b70, 0xc76c51a3, 0xd192e819, 0xd6990624, 0xf40e3585, 0x106aa070,
  0x19a4c116, 0x1e376c08, 0x2748774c, 0x34b0bcb5, 0x391c0cb3, 0x4ed8aa4a, 0x5b9cca4f, 0x682e6ff3,
  0x748f82ee, 0x78a5636f, 0x84c87814, 0x8cc70208, 0x90befffa, 0xa4506ceb, 0xbef9a3f7, 0xc67178f2]

/-- The hash state: eight 32-bit words. -/
structure digest where
  h0 : Nat
  h1 : Nat
  h2 : Nat
  h3 : Nat
  h4 : Nat
  h5 : Nat
  h6 : Nat
  h7 : Nat
deriving DecidableEq, Repr

/-- The initial hash value (`init0` .. `init7`). -/
def init : digest :=
  ⟨0x6a09e667, 0xbb67ae85, 0x3c6ef372, 0xa54ff53a, 0x510e527f, 0x9b05688c, 0x1f83d9ab, 0x5be0cd19⟩

/-- Truncation to a 32-bit word. -/
def w32 (x : Nat) : Nat := x % 4294967296

/-- Rotation of a 32-bit word to the right (`bits.RotateLeft32(x, -n)`). -/
def rotr (x n : Nat) : Nat := w32 ((x >>> n) ||| (x <<< (32 - n)))

/-- Bitwise complement of a 32-bit word. -/
def not32 (x : Nat) : Nat := x ^^^ 4294967295

/-- The message schedule: sixteen big-endian words of the block, extended to
`16 + n` words. -/
def schedule (p : List byte) : Nat → List Nat
  | 0 => (List.range 16).map fun i =>
      (p.getD (4 * i) 0).toNat <<< 24 ||| (p.getD (4 * i + 1) 0).toNat <<< 16 |||
      (p.getD (4 * i + 2) 0).toNat <<< 8 ||| (p.getD (4 * i + 3) 0).toNat
  | n + 1 =>
    let w := schedule p n
    let i := 16 + n
    let v1 := w.getD (i - 2) 0
    let t1 := rotr v1 17 ^^^ rotr v1 19 ^^^ (v1 >>> 10)
    let v2 := w.getD (i - 15) 0
    let t2 := rotr v2 7 ^^^ rotr v2 18 ^^^ (v2 >>> 3)
    w ++ [w32 (t1 + w.getD (i - 7) 0 + t2 + w.getD (i - 16) 0)]

/-- One round of the compression function with round constant plus schedule
word `kw`. -/
def round (s : digest) (kw : Nat) : digest :=
  let t1 := s.h7 + (rotr s.h4 6 ^^^ rotr s.h4 11 ^^^ rotr s.h4 25) +
    ((s.h4 &&& s.h5) ^^^ (not32 s.h4 &&& s.h6)) + kw
  let t2 := (rotr s.h0 2 ^^^ rotr s.h0 13 ^^^ rotr s.h0 22) +
    ((s.h0 &&& s.h1) ^^^ (s.h0 &&& s.h2) ^^^ (s.h1 &&& s.h2))
  ⟨w32 (t1 + t2), s.h0, s.h1, s.h2, w32 (s.h3 + t1), s.h4, s.h5, s.h6⟩

/-- The function `blockGeneric` on one 64-byte block `p`. -/
def block (s : digest) (p : List byte) : digest :=
  let w := schedule p 48
  let r := (List.zipWith (fun k x => k + x) K w).foldl round s
  ⟨w32 (s.h0 + r.h0), w32 (s.h1 + r.h1), w32 (s.h2 + r.h2), w32 (s.h3 + r.h3),
   w32 (s.h4 + r.h4), w32 (s.h5 + r.h5), w32 (s.h6 + r.h6), w32 (s.h7 + r.h7)⟩

/-- The state after hashing the first `n` 64-byte blocks of `p`. -/
def blocks : Nat → digest → List byte → digest
  | 0, s, _ => s
  | n + 1, s, p => blocks n (block s (p.take 64)) (p.drop 64)

/-- The big-endian bytes of the low `8 * n` bits of `x`. -/
def bigEndian : Nat → Nat → List byte
  | 0, _ => []
  | n + 1, x => UInt8.ofNat (x >>> (8 * n) % 256) :: bigEndian n x

/-- The padded message: the data, the byte `0x80`, zero bytes up to 56 modulo
64, and the length in bits as a 64-bit big-endian number. -/
def pad (data : List byte) : List byte :=
  let len := data.length
  let zeros := if len % 64 < 56 then 55 - len % 64 else 64 + 55 - len % 64
  data ++ [0x80] ++ List.replicate zeros 0 ++ bigEndian 8 (len * 8 % 18446744073709551616)

/-- The call `sha256.Sum256(data)`, as the slice `hash[:]` of its 32 bytes. -/
def Sum256 (data : List byte) : List byte :=
  let p := pad data
  let d := blocks (p.length / 64) init p
  bigEndian 4 d.h0 ++ bigEndian 4 d.h1 ++ bigEndian 4 d.h2 ++ bigEndian 4 d.h3 ++
  bigEndian 4 d.h4 ++ bigEndian 4 d.h5 ++ bigEndian 4 d.h6 ++ bigEndian 4 d.h7

end sha256

/-! ## The program: `Block` -/

/-- The struct `Block`. -/
structure Block where
  Timestamp : int64
  Data : List byte
  PrevBlockHash : List byte
  Hash : List byte
deriving DecidableEq, Repr

/-- The method `(b *Block) SetHash()`; the result is the block `*b` after the call. -/
def Block.SetHash (b : Block) : Block :=
  let timestamp := FormatInt b.Timestamp
  let headers := Join [b.PrevBlockHash, b.Data, timestamp] []
  let hash := sha256.Sum256 headers
  { b with Hash := hash }

/-- The function `NewBlock(data, prevBlockHash)`, with `now` the value of
`time.Now().Unix()`. -/
def NewBlock (now : int64) (data : List byte) (prevBlockHash : List byte) : Block :=
  let block : Block := ⟨now, data, prevBlockHash, []⟩
  block.SetHash

/-! ## The program: `Blockchain` -/

/-- The struct `Blockchain`. An entry of `blocks []*Block` is `some b` for a
pointer to the block `b` and `none` for the nil pointer. -/
structure Blockchain where
  blocks : List (Option Block)
deriving DecidableEq, Repr

/-- The index expression `s[i]` of Go, which panics when `i` is out of range. -/
def index {α : Type} (s : List α) (i : Int) : Except RuntimeError α :=
  match (if 0 ≤ i then s.get? i.toNat else none) with
  | some x => .ok x
  | none => .error (.indexOutOfRange i s.length)

/-- The method `(bc *Blockchain) AddBlock(data)`, with `now` the clock reading
of its call to `NewBlock`; the result is the chain `*bc` after the call, or the
panic that aborted it: the index read of line 76, or the field read
`prevBlock.Hash` of line 77 through a nil pointer. -/
def Blockchain.AddBlock (bc : Blockchain) (now : int64) (data : List byte) :
    Except RuntimeError Blockchain :=
  match index bc.blocks ((bc.blocks.length : Int) - 1) with
  | .error e => .error e
  | .ok none => .error .nilDereference
  | .ok (some prevBlock) =>
    let newBlock := NewBlock now data prevBlock.Hash
    .ok { blocks := bc.blocks ++ [some newBlock] }

/-- The function `NewGenesisBlock()`. -/
def NewGenesisBlock (now : int64) : Block :=
  NewBlock now (bytesOfString "Genesis Block") []

/-- The function `NewBlockchain()`. -/
def NewBlockchain (now : int64) : Blockchain :=
  { blocks := [some (NewGenesisBlock now)] }

/-- The chains obtained from `bc0` by finitely many successful `AddBlock`
calls, each with its own payload and clock reading. -/
inductive ReachableFrom (bc0 : Blockchain) : Blockchain → Prop where
  | start : ReachableFrom bc0 bc0
  | step {bc bc1 : Blockchain} (now : int64) (data : List byte) :
      ReachableFrom bc0 bc → bc.AddBlock now data = .ok bc1 → ReachableFrom bc0 bc1

/-- The chains reachable from `NewBlockchain()`, for some clock reading. -/
def Reachable (bc : Blockchain) : Prop :=
  ∃ now : int64, ReachableFrom (NewBlockchain now) bc

/-! ## The specification's vocabulary -/

/-- The ASCII digit of a number below ten. -/
def digitChar (d : Nat) : byte := UInt8.ofNat (48 + d)

/-- The canonical decimal digits of a natural number: most significant first,
no leading zeros, and the single digit `0` for zero. -/
def decimalDigits (n : Nat) : List byte :=
  if n = 0 then [digitChar 0] else (Nat.digits 10 n).reverse.map digitChar

/-- The decimal ASCII string representation of an integer as the specification
words it: base 10, minimal digits, a sign only for negative values. -/
def decimalASCII (t : Int) : List byte :=
  if t < 0 then 45 :: decimalDigits t.natAbs else decimalDigits t.natAbs

/-- The hash derivation as the specification words it: SHA-256 of `prevHash`,
then `payload`, then the decimal string of `timestamp`, with nothing between. -/
def deriveHash (prevHash payload : List byte) (timestamp : Int) : List byte :=
  sha256.Sum256 (prevHash ++ payload ++ decimalASCII timestamp)

/-- Reading a run of ASCII digits as a base-10 number, left to right. -/
def parseDigits : List byte → Nat → Option Nat
  | [], acc => some acc
  | c :: cs, acc =>
    if 48 ≤ c.toNat ∧ c.toNat ≤ 57 then parseDigits cs (acc * 10 + (c.toNat - 48)) else none

/-- Parsing a string as a decimal integer: an optional `-`, then one or more
digits. -/
def parseDecimal (s : List byte) : Option Int :=
  match s with
  | [] => none
  | c :: cs =>
    if c = 45 then
      if cs = [] then none
      else
        match parseDigits cs 0 with
        | some n => some (-(n : Int))
        | none => none
    else
      match parseDigits (c :: cs) 0 with
      | some n => some (n : Int)
      | none => none

/-- The digits of a positive number, most significant first (empty for zero). -/
def digitString (n : Nat) : List byte := (Nat.digits 10 n).reverse.map digitChar

/-- Every link of the list joins a block to the hash of the block before it. -/
def Linked (l : List Block) : Prop :=
  List.Chain' (fun p b => b.PrevBlockHash = p.Hash) l

/-! ## A concrete run, after the first two statements of `main` -/

/-- Equality of results is decidable, so that concrete runs can be evaluated. -/
instance instDecidableEqExcept {ε α : Type} [DecidableEq ε] [DecidableEq α] :
    DecidableEq (Except ε α) := fun a b =>
  match a, b with
  | .ok x, .ok y => if h : x = y then isTrue (by rw [h]) else isFalse (fun e => h (Except.ok.inj e))
  | .error x, .error y =>
    if h : x = y then isTrue (by rw [h]) else isFalse (fun e => h (Except.error.inj e))
  | .ok _, .error _ => isFalse (fun e => Except.noConfusion e)
  | .error _, .ok _ => isFalse (fun e => Except.noConfusion e)

/-- A clock reading for `NewBlockchain()`. -/
def clock0 : int64 := ⟨1700000000, by decide⟩

/-- A later clock reading, for the first `AddBlock`. -/
def clock1 : int64 := ⟨1700000007, by decide⟩

/-- The chain of `main` after `bc.AddBlock("Send 1 BTC to Ivan")`. -/
def demoChain : Blockchain :=
  { blocks := [some (NewGenesisBlock clock0),
      some (NewBlock clock1 (bytesOfString "Send 1 BTC to Ivan") (NewGenesisBlock clock0).Hash)] }

/-- A later clock reading still, for the second `AddBlock`. -/
def clock2 : int64 := ⟨1700000011, by decide⟩

/-! ## Sequences of calls -/

/-- The statements `bc.AddBlock(p1); ...; bc.AddBlock(pn)` run in that order, each
call with its own clock reading; a panic aborts the rest. -/
def AddBlocks (bc : Blockchain) : List (int64 × List byte) → Except RuntimeError Blockchain
  | [] => .ok bc
  | (now, data) :: rest =>
    match bc.AddBlock now data with
    | .error e => .error e
    | .ok bc1 => AddBlocks bc1 rest

/-- The chain `*bc` as it stands once a call `bc.AddBlock(data)` is over: the chain
with the new block when the call returned, the chain as it was when the call
panicked (the assignment to `bc.blocks` is the last statement of the method). -/
def Blockchain.afterAddBlock (bc : Blockchain) (now : int64) (data : List byte) : Blockchain :=
  match bc.AddBlock now data with
  | .ok bc1 => bc1
  | .error _ => bc

/-- The byte sequence `headers` that `SetHash` passes to `sha256.Sum256`. -/
def Block.headers (b : Block) : List byte :=
  Join [b.PrevBlockHash, b.Data, FormatInt b.Timestamp] []

/-! ## Test vectors for the library models -/

theorem Sum256_empty :
    sha256.Sum256 [] =
      [0xe3, 0xb0, 0xc4, 0x42, 0x98, 0xfc, 0x1c, 0x14, 0x9a, 0xfb, 0xf4, 0xc8, 0x99, 0x6f, 0xb9,
       0x24, 0x27, 0xae, 0x41, 0xe4, 0x64, 0x9b, 0x93, 0x4c, 0xa4, 0x95, 0x99, 0x1b, 0x78, 0x52,
       0xb8, 0x55] := by
  decide

theorem Sum256_abc :
    sha256.Sum256 (bytesOfString "abc") =
      [0xba, 0x78, 0x16, 0xbf, 0x8f, 0x01, 0xcf, 0xea, 0x41, 0x41, 0x40, 0xde, 0x5d, 0xae, 0x22,
       0x23, 0xb0, 0x03, 0x61, 0xa3, 0x96, 0x17, 0x7a, 0x9c, 0xb4, 0x10, 0xff, 0x61, 0xf2, 0x00,
       0x15, 0xad] := by
  decide

set_option maxRecDepth 100000 in
theorem Sum256_two_blocks :
    sha256.Sum256 (bytesOfString "abcdbcdecdefdefgefghfghighijhijkijkljklmklmnlmnomnopnopq") =
      [0x24, 0x8d, 0x6a, 0x61, 0xd2, 0x06, 0x38, 0xb8, 0xe5, 0xc0, 0x26, 0x93, 0x0c, 0x3e, 0x60,
       0x39, 0xa3, 0x3c, 0xe4, 0x59, 0x64, 0xff, 0x21, 0x67, 0xf6, 0xec, 0xed, 0xd4, 0x19, 0xdb,
       0x06, 0xc1] := by
  decide

theorem FormatInt_examples :
    FormatInt ⟨0, by decide⟩ = bytesOfString "0" ∧
    FormatInt ⟨7, by decide⟩ = bytesOfString "7" ∧
    FormatInt ⟨42, by decide⟩ = bytesOfString "42" ∧
    FormatInt ⟨100, by decide⟩ = bytesOfString "100" ∧
    FormatInt ⟨-1, by decide⟩ = bytesOfString "-1" ∧
    FormatInt ⟨1700000000, by decide⟩ = bytesOfString "1700000000" ∧
    FormatInt ⟨9223372036854775807, by decide⟩ = bytesOfString "9223372036854775807" ∧
    FormatInt ⟨-9223372036854775808, by decide⟩ = bytesOfString "-9223372036854775808" := by
  decide

theorem genesis_payload :
    bytesOfString "Genesis Block" =
      [71, 101, 110, 101, 115, 105, 115, 32, 66, 108, 111, 99, 107] := by
  decide

/-! ## The decimal string -/

set_option maxRecDepth 100000 in
theorem smallsString_getD : ∀ k < 100,
    smallsString.getD (k * 2) 0 = digitChar (k / 10) ∧
    smallsString.getD (k * 2 + 1) 0 = digitChar (k % 10) := by
  decide

set_option maxRecDepth 100000 in
theorem small_eq : ∀ k < 100,
    small k = if k < 10 then [digitChar k] else [digitChar (k / 10), digitChar (k % 10)] := by
  decide

theorem digitString_zero : digitString 0 = [] := by
  simp [digitString]

theorem digitString_lt {n : Nat} (h0 : 0 < n) (h : n < 10) : digitString n = [digitChar n] := by
  simp [digitString, Nat.digits_of_lt 10 n (by omega) h]

theorem digitString_step {n : Nat} (h0 : 0 < n) :
    digitString n = digitString (n / 10) ++ [digitChar (n % 10)] := by
  simp [digitString, Nat.digits_def' (by decide : 1 < 10) h0]

theorem digitString_step2 {n : Nat} (h : 100 ≤ n) :
    digitString n = digitString (n / 100) ++ [digitChar (n % 100 / 10), digitChar (n % 100 % 10)] := by
  rw [digitString_step (by omega : 0 < n), digitString_step (by omega : 0 < n / 10)]
  have e1 : n / 10 / 10 = n / 100 := by omega
  have e2 : n / 10 % 10 = n % 100 / 10 := by omega
  have e3 : n % 10 = n % 100 % 10 := by omega
  rw [e1, e2, ← e3]; simp

theorem decimalDigits_pos {n : Nat} (h : 0 < n) : decimalDigits n = digitString n := by
  simp [decimalDigits, digitString, Nat.pos_iff_ne_zero.mp h]

theorem formatLoop_spec : ∀ (fuel u : Nat) (a : List byte),
    (u < 100 ^ (fuel + 1) → (formatLoop fuel u a).1 < 100) ∧
    (0 < u → 0 < (formatLoop fuel u a).1) ∧
    digitString (formatLoop fuel u a).1 ++ (formatLoop fuel u a).2 = digitString u ++ a := by
  intro fuel
  induction fuel with
  | zero => intro u a; simp [formatLoop]
  | succ fuel ih =>
    intro u a
    by_cases hu : u ≥ 100
    · have hk : u % 100 < 100 := Nat.mod_lt _ (by decide)
      obtain ⟨t1, t2⟩ := smallsString_getD (u % 100) hk
      simp only [formatLoop, hu, if_true, t1, t2]
      obtain ⟨i1, i2, i3⟩ := ih (u / 100) (digitChar (u % 100 / 10) :: digitChar (u % 100 % 10) :: a)
      refine ⟨fun h => i1 ?_, fun _ => i2 (by omega), ?_⟩
      · rw [pow_succ] at h; omega
      · rw [i3, digitString_step2 hu]; simp
    · simp only [formatLoop, hu, if_false]
      exact ⟨fun _ => by omega, fun h => h, trivial⟩

/-- The digits written by `formatBits` after its loop, for any `u` below `2^64`. -/
theorem formatBits_digits {u : Nat} (hu : u < 18446744073709551616) :
    (if (formatLoop 32 u []).1 ≥ 10
      then smallsString.getD ((formatLoop 32 u []).1 * 2) 0 ::
        smallsString.getD ((formatLoop 32 u []).1 * 2 + 1) 0 :: (formatLoop 32 u []).2
      else smallsString.getD ((formatLoop 32 u []).1 * 2 + 1) 0 :: (formatLoop 32 u []).2)
    = decimalDigits u := by
  obtain ⟨h1, h2, h3⟩ := formatLoop_spec 32 u []
  have hlt : (formatLoop 32 u []).1 < 100 := h1 (lt_trans hu (by norm_num))
  obtain ⟨t1, t2⟩ := smallsString_getD _ hlt
  rw [t1, t2]
  generalize (formatLoop 32 u []).1 = us at *
  generalize (formatLoop 32 u []).2 = a at *
  simp only [List.append_nil] at h3
  by_cases hz : u = 0
  · subst hz
    rw [digitString_zero] at h3
    have ha : a = [] := (List.append_eq_nil.mp h3).2
    have hus : us = 0 := by
      by_contra hne
      have := (List.append_eq_nil.mp h3).1
      rw [digitString_step (Nat.pos_of_ne_zero hne)] at this
      simp at this
    subst ha hus
    simp [decimalDigits]
  · have hpos : 0 < us := h2 (Nat.pos_of_ne_zero hz)
    rw [decimalDigits_pos (Nat.pos_of_ne_zero hz), ← h3]
    by_cases h10 : us ≥ 10
    · rw [if_pos h10, digitString_step hpos, digitString_lt (by omega) (by omega : us / 10 < 10)]
      simp
    · rw [if_neg h10, digitString_lt hpos (by omega), Nat.mod_eq_of_lt (by omega : us < 10)]
      simp

theorem formatBits_eq (u : Nat) (neg : Bool) (hu : u < 18446744073709551616) :
    formatBits u neg =
      if neg then 45 :: decimalDigits ((18446744073709551616 - u) % 18446744073709551616)
      else decimalDigits u := by
  cases neg with
  | false =>
    have := formatBits_digits hu
    simp only [formatBits, Bool.false_eq_true, if_false]
    split_ifs at this ⊢ <;> simpa using this
  | true =>
    have := formatBits_digits (Nat.mod_lt (18446744073709551616 - u) (by decide))
    simp only [formatBits, if_true]
    split_ifs at this ⊢ <;> simpa using this

/-- Refinement: `strconv.FormatInt(i, 10)` is the canonical decimal string of `i`. -/
theorem FormatInt_eq_decimalASCII (i : int64) : FormatInt i = decimalASCII i.val := by
  obtain ⟨v, hlo, hhi⟩ := i
  simp only [minInt64, maxInt64] at hlo hhi
  unfold FormatInt decimalASCII
  simp only [nSmalls]
  by_cases hs : 0 ≤ v ∧ v < 100
  · rw [if_pos hs, if_neg (by omega)]
    have hk : v.toNat < 100 := by omega
    rw [small_eq _ hk, show v.natAbs = v.toNat by omega]
    by_cases h10 : v.toNat < 10
    · rw [if_pos h10]
      by_cases h0 : v.toNat = 0
      · simp [h0, decimalDigits]
      · rw [decimalDigits_pos (by omega), digitString_lt (by omega) h10]
    · rw [if_neg h10, decimalDigits_pos (by omega), digitString_step (by omega),
        digitString_lt (by omega) (by omega : v.toNat / 10 < 10)]
      simp
  · rw [if_neg hs, formatBits_eq _ _ (by unfold uint64OfInt64; omega)]
    unfold uint64OfInt64
    by_cases hneg : v < 0
    · simp only [hneg, decide_True, if_true]
      congr 2
      omega
    · simp only [hneg, decide_False, Bool.false_eq_true, if_false]
      congr 1
      omega

theorem digitChar_toNat : ∀ d < 10, (digitChar d).toNat = 48 + d := by
  decide

theorem digitString_isDigit (n : Nat) :
    ∀ c ∈ digitString n, 48 ≤ c.toNat ∧ c.toNat ≤ 57 := by
  intro c hc
  simp only [digitString, List.mem_map, List.mem_reverse] at hc
  obtain ⟨d, hd, rfl⟩ := hc
  have hlt : d < 10 := Nat.digits_lt_base (by decide) hd
  rw [digitChar_toNat d hlt]
  omega

theorem digitString_ne_nil {n : Nat} (h : 0 < n) : digitString n ≠ [] := by
  rw [digitString_step h]
  simp

theorem digitString_head {n : Nat} (h : 0 < n) : (digitString n).head? ≠ some 48 := by
  have hne : Nat.digits 10 n ≠ [] := Nat.digits_ne_nil_iff_ne_zero.mpr (by omega)
  have hlast := Nat.getLast_digit_ne_zero 10 (Nat.pos_iff_ne_zero.mp h)
  have hmem : (Nat.digits 10 n).getLast hne ∈ Nat.digits 10 n := List.getLast_mem hne
  have hlt : (Nat.digits 10 n).getLast hne < 10 := Nat.digits_lt_base (by decide) hmem
  have hh : (digitString n).head? = some (digitChar ((Nat.digits 10 n).getLast hne)) := by
    simp [digitString, List.head?_reverse, List.getLast?_eq_getLast _ hne]
  rw [hh]
  intro hc
  have h48 := congrArg UInt8.toNat (Option.some.inj hc)
  rw [digitChar_toNat _ hlt] at h48
  have : (48 : UInt8).toNat = 48 := by decide
  omega

theorem parseDigits_append (l : List byte) (c : byte) : ∀ acc,
    parseDigits (l ++ [c]) acc =
      (parseDigits l acc).bind fun m =>
        if 48 ≤ c.toNat ∧ c.toNat ≤ 57 then some (m * 10 + (c.toNat - 48)) else none := by
  induction l with
  | nil => intro acc; simp [parseDigits]
  | cons x xs ih =>
    intro acc
    simp only [List.cons_append, parseDigits]
    by_cases hx : 48 ≤ x.toNat ∧ x.toNat ≤ 57
    · rw [if_pos hx, if_pos hx]; exact ih _
    · rw [if_neg hx, if_neg hx]; rfl

theorem parseDigits_digitString (n : Nat) : parseDigits (digitString n) 0 = some n := by
  induction n using Nat.strong_induction_on with
  | _ n ih =>
    by_cases h : n = 0
    · subst h; simp [digitString_zero, parseDigits]
    · have hpos : 0 < n := Nat.pos_of_ne_zero h
      rw [digitString_step hpos, parseDigits_append, ih (n / 10) (by omega)]
      have hd := digitChar_toNat (n % 10) (Nat.mod_lt _ (by decide))
      simp only [Option.some_bind, hd]
      rw [if_pos (by omega)]
      congr 1
      omega

theorem parseDigits_decimalDigits (n : Nat) : parseDigits (decimalDigits n) 0 = some n := by
  by_cases h : n = 0
  · subst h; decide
  · rw [decimalDigits_pos (Nat.pos_of_ne_zero h)]; exact parseDigits_digitString n

theorem decimalDigits_isDigit (n : Nat) :
    ∀ c ∈ decimalDigits n, 48 ≤ c.toNat ∧ c.toNat ≤ 57 := by
  by_cases h : n = 0
  · subst h; decide
  · rw [decimalDigits_pos (Nat.pos_of_ne_zero h)]; exact digitString_isDigit n

theorem decimalDigits_ne_nil (n : Nat) : decimalDigits n ≠ [] := by
  by_cases h : n = 0
  · subst h; decide
  · rw [decimalDigits_pos (Nat.pos_of_ne_zero h)]; exact digitString_ne_nil (Nat.pos_of_ne_zero h)

theorem decimalDigits_head (n : Nat) (h : (decimalDigits n).head? = some 48) :
    n = 0 ∧ decimalDigits n = [48] := by
  by_cases h0 : n = 0
  · subst h0; exact ⟨rfl, by decide⟩
  · rw [decimalDigits_pos (Nat.pos_of_ne_zero h0)] at h
    exact absurd h (digitString_head (Nat.pos_of_ne_zero h0))

theorem parseDecimal_decimalASCII (t : Int) : parseDecimal (decimalASCII t) = some t := by
  unfold decimalASCII
  by_cases hneg : t < 0
  · rw [if_pos hneg]
    simp only [parseDecimal, if_true, decimalDigits_ne_nil, if_false,
      parseDigits_decimalDigits]
    congr 1
    omega
  · rw [if_neg hneg]
    have hp := parseDigits_decimalDigits t.natAbs
    have hd := decimalDigits_isDigit t.natAbs
    cases hl : decimalDigits t.natAbs with
    | nil => exact absurd hl (decimalDigits_ne_nil _)
    | cons c cs =>
      rw [hl] at hp hd
      have hc := hd c (List.mem_cons_self _ _)
      have hne : c ≠ 45 := by
        intro h; subst h
        have : (45 : UInt8).toNat = 45 := by decide
        omega
      simp only [parseDecimal, hne, if_false, hp]
      congr 1
      omega

/-- The bound of 32 iterations never cuts the digit loop short on a `uint64`:
the loop leaves a value below 100, and a larger bound gives the same result. -/
theorem formatLoop_enough_fuel (u : Nat) (hu : u < 18446744073709551616) (a : List byte) :
    (formatLoop 32 u a).1 < 100 ∧ ∀ k, formatLoop (32 + k) u a = formatLoop 32 u a := by
  refine ⟨(formatLoop_spec 32 u a).1 (lt_trans hu (by norm_num)), ?_⟩
  have key : ∀ (fuel u : Nat) (a : List byte), u < 100 ^ (fuel + 1) →
      ∀ k, formatLoop (fuel + k) u a = formatLoop fuel u a := by
    intro fuel
    induction fuel with
    | zero =>
      intro u a h k
      cases k with
      | zero => rfl
      | succ k =>
        have : ¬ u ≥ 100 := by simpa using h
        simp [formatLoop, this]
    | succ fuel ih =>
      intro u a h k
      rw [show fuel + 1 + k = (fuel + k) + 1 by omega]
      by_cases h100 : u ≥ 100
      · simp only [formatLoop, h100, if_true]
        exact ih _ _ (by rw [pow_succ] at h; omega) k
      · simp only [formatLoop, h100, if_false]
  exact key 32 u a (lt_trans hu (by norm_num))

/-! ## The hash of a block -/

theorem Join_three (a b c : List byte) : Join [a, b, c] [] = a ++ b ++ c := by
  simp [Join]

theorem SetHash_Hash (b : Block) :
    b.SetHash.Hash = sha256.Sum256 (b.PrevBlockHash ++ b.Data ++ decimalASCII b.Timestamp.val) := by
  simp only [Block.SetHash, Join_three, FormatInt_eq_decimalASCII]

theorem SetHash_fields (b : Block) :
    b.SetHash.Timestamp = b.Timestamp ∧ b.SetHash.Data = b.Data ∧
      b.SetHash.PrevBlockHash = b.PrevBlockHash :=
  ⟨rfl, rfl, rfl⟩

theorem Sum256_length (data : List byte) : (sha256.Sum256 data).length = 32 := by
  simp [sha256.Sum256, sha256.bigEndian]

theorem Sum256_ne_nil (data : List byte) : sha256.Sum256 data ≠ [] := by
  intro h
  have := Sum256_length data
  rw [h] at this
  simp at this

theorem NewBlock_fields (now : int64) (data prevBlockHash : List byte) :
    (NewBlock now data prevBlockHash).Timestamp = now ∧
    (NewBlock now data prevBlockHash).Data = data ∧
    (NewBlock now data prevBlockHash).PrevBlockHash = prevBlockHash :=
  ⟨rfl, rfl, rfl⟩

theorem NewBlock_Hash (now : int64) (data prevBlockHash : List byte) :
    (NewBlock now data prevBlockHash).Hash = deriveHash prevBlockHash data now.val := by
  simp only [NewBlock, SetHash_Hash, deriveHash]

/-! ## Appending to a chain -/

theorem index_last {α : Type} (s : List α) (h : s ≠ []) :
    index s ((s.length : Int) - 1) = .ok (s.getLast h) := by
  have hlen : 0 < s.length := List.length_pos.mpr h
  have h0 : (0 : Int) ≤ (s.length : Int) - 1 := by omega
  have hn : ((s.length : Int) - 1).toNat = s.length - 1 := by omega
  simp only [index, h0, if_true, hn]
  rw [List.get?_eq_getElem?, ← List.getLast?_eq_getElem?, List.getLast?_eq_getLast _ h]

theorem index_nil {α : Type} (i : Int) :
    index ([] : List α) i = .error (.indexOutOfRange i 0) := by
  simp only [index]
  split_ifs <;> rfl

theorem index_of_getLast {α : Type} {s : List α} {x : α} (h : s.getLast? = some x) :
    index s ((s.length : Int) - 1) = .ok x := by
  have hne : s ≠ [] := by
    intro e
    rw [e] at h
    simp at h
  rw [index_last s hne]
  rw [List.getLast?_eq_getLast _ hne] at h
  rw [Option.some.inj h]

/-- On a chain whose last entry points to the block `p`, `AddBlock` returns. -/
theorem AddBlock_ok (bc : Blockchain) (now : int64) (data : List byte) (p : Block)
    (hp : bc.blocks.getLast? = some (some p)) :
    bc.AddBlock now data =
      .ok { blocks := bc.blocks ++ [some (NewBlock now data p.Hash)] } := by
  simp only [Blockchain.AddBlock, index_of_getLast hp]

/-- On a chain whose last entry is the nil pointer, `AddBlock` panics. -/
theorem AddBlock_nil (bc : Blockchain) (now : int64) (data : List byte)
    (hp : bc.blocks.getLast? = some none) :
    bc.AddBlock now data = .error .nilDereference := by
  simp only [Blockchain.AddBlock, index_of_getLast hp]

/-- On a chain without entries, `AddBlock` panics. -/
theorem AddBlock_empty (bc : Blockchain) (now : int64) (data : List byte)
    (h : bc.blocks = []) :
    bc.AddBlock now data = .error (.indexOutOfRange (-1) 0) := by
  have hidx : index bc.blocks ((bc.blocks.length : Int) - 1) =
      .error (.indexOutOfRange (-1) 0) := by
    rw [h, index_nil]; rfl
  simp only [Blockchain.AddBlock, hidx]

theorem AddBlock_inv {bc bc1 : Blockchain} {now : int64} {data : List byte}
    (h : bc.AddBlock now data = .ok bc1) :
    ∃ p : Block, bc.blocks.getLast? = some (some p) ∧
      bc1.blocks = bc.blocks ++ [some (NewBlock now data p.Hash)] := by
  cases hl : bc.blocks.getLast? with
  | none =>
    rw [AddBlock_empty bc now data (List.getLast?_eq_none_iff.mp hl)] at h
    exact Except.noConfusion h
  | some e =>
    cases e with
    | none =>
      rw [AddBlock_nil bc now data hl] at h
      exact Except.noConfusion h
    | some p =>
      refine ⟨p, rfl, ?_⟩
      rw [AddBlock_ok bc now data p hl] at h
      rw [← Except.ok.inj h]

/-! ## Invariants of reachable chains -/

/-- The block at index 0 is the first block of the initial chain, and the chain is
the initial one followed by appended blocks. -/
theorem ReachableFrom_extends {bc0 bc : Blockchain} (h : ReachableFrom bc0 bc) :
    ∃ rest, bc.blocks = bc0.blocks ++ rest := by
  induction h with
  | start => exact ⟨[], by simp⟩
  | step now data _ hadd ih =>
    obtain ⟨rest, hrest⟩ := ih
    obtain ⟨p, _, heq⟩ := AddBlock_inv hadd
    exact ⟨rest ++ [some (NewBlock now data p.Hash)], by rw [heq, hrest, List.append_assoc]⟩

theorem Reachable_ne_nil {bc : Blockchain} (h : Reachable bc) : bc.blocks ≠ [] := by
  obtain ⟨now, hr⟩ := h
  obtain ⟨rest, hrest⟩ := ReachableFrom_extends hr
  rw [hrest]
  simp [NewBlockchain]

theorem Linked_append_NewBlock (l : List Block) (hl : Linked l) (p : Block)
    (hp : l.getLast? = some p) (now : int64) (data : List byte) :
    Linked (l ++ [NewBlock now data p.Hash]) := by
  unfold Linked at *
  refine List.Chain'.append hl (List.chain'_singleton _) ?_
  intro x hx y hy
  rw [hp] at hx
  simp only [List.head?_cons, Option.mem_def, Option.some.injEq] at hx hy
  subst hx hy
  rfl

/-- The entries of a reachable chain are pointers to blocks, none of them nil: the
blocks form a non-empty linked list and each carries the hash of its own fields. -/
theorem Reachable_records {bc : Blockchain} (h : Reachable bc) :
    ∃ l : List Block, bc.blocks = l.map some ∧ l ≠ [] ∧ Linked l ∧
      ∀ b ∈ l, b.Hash = deriveHash b.PrevBlockHash b.Data b.Timestamp.val := by
  obtain ⟨t, hr⟩ := h
  induction hr with
  | start =>
    refine ⟨[NewGenesisBlock t], rfl, by simp, List.chain'_singleton _, ?_⟩
    intro b hb
    simp only [List.mem_singleton] at hb
    subst hb
    exact NewBlock_Hash _ _ _
  | step now data _ hadd ih =>
    obtain ⟨l, hl, _, hlink, hh⟩ := ih
    obtain ⟨p, hp, heq⟩ := AddBlock_inv hadd
    have hp1 : l.getLast? = some p := by
      rw [hl, List.getLast?_map] at hp
      cases hlast : l.getLast? with
      | none => rw [hlast] at hp; simp at hp
      | some q => rw [hlast] at hp; simpa using hp
    refine ⟨l ++ [NewBlock now data p.Hash], ?_, by simp,
      Linked_append_NewBlock l hlink p hp1 now data, ?_⟩
    · rw [heq, hl]; simp
    · intro b hb
      rw [List.mem_append, List.mem_singleton] at hb
      rcases hb with hb | hb
      · exact hh b hb
      · subst hb
        exact NewBlock_Hash _ _ _

theorem Reachable_hashes {bc : Blockchain} (h : Reachable bc) :
    ∀ e ∈ bc.blocks, ∃ b : Block, e = some b ∧
      b.Hash = deriveHash b.PrevBlockHash b.Data b.Timestamp.val := by
  obtain ⟨l, hl, _, _, hh⟩ := Reachable_records h
  intro e he
  rw [hl, List.mem_map] at he
  obtain ⟨b, hb, rfl⟩ := he
  exact ⟨b, rfl, hh b hb⟩

theorem getElem_map_some {l : List Block} {es : List (Option Block)} (h : es = l.map some)
    (i : Nat) (hi : i < es.length) : ∃ hl : i < l.length, es[i] = some l[i] := by
  subst h
  exact ⟨by simpa using hi, by simp⟩

theorem demoChain_step :
    (NewBlockchain clock0).AddBlock clock1 (bytesOfString "Send 1 BTC to Ivan") = .ok demoChain :=
  rfl

theorem demoChain_reachable : Reachable demoChain :=
  ⟨clock0, ReachableFrom.step clock1 _ ReachableFrom.start demoChain_step⟩

theorem Linked_index {l : List Block} (hl : Linked l) (i : Nat) (h0 : 0 < i)
    (hi : i < l.length) : l[i].PrevBlockHash = l[i - 1].Hash := by
  cases i with
  | zero => omega
  | succ j => exact (List.chain'_iff_get.mp hl) j (by omega)

/-- In a reachable chain the entries at `i > 0` and at `i - 1` are blocks, and the
first names the hash of the second. -/
theorem Reachable_link {bc : Blockchain} (h : Reachable bc) (i : Nat) (h0 : 0 < i)
    (hi : i < bc.blocks.length) :
    ∃ b p : Block, bc.blocks[i] = some b ∧ bc.blocks[i - 1] = some p ∧
      b.PrevBlockHash = p.Hash := by
  obtain ⟨l, hl, _, hlink, _⟩ := Reachable_records h
  obtain ⟨hl1, e1⟩ := getElem_map_some hl i hi
  obtain ⟨_, e0⟩ := getElem_map_some hl (i - 1) (by omega)
  exact ⟨l[i], l[i - 1], e1, e0, Linked_index hlink i h0 hl1⟩

/-! ## The claims -/

/-- C1: for every block, whatever its fields and its previous `Hash`, after
`SetHash` the field `Hash` is SHA-256 of the bytes `PrevBlockHash`, then `Data`,
then the decimal ASCII string of `Timestamp`, concatenated with nothing between. -/
theorem C1_SetHash_hash_of_concatenation (b : Block) :
    b.SetHash.Hash =
      sha256.Sum256 (b.PrevBlockHash ++ b.Data ++ decimalASCII b.Timestamp.val) :=
  SetHash_Hash b

/-- C2: in every chain reachable from `NewBlockchain()` by `AddBlock` calls, at
every index `i > 0` the entry is a block whose `PrevBlockHash` is the `Hash` of the
block at index `i - 1`. -/
theorem C2_reachable_chain_is_linked (bc : Blockchain) (h : Reachable bc) (i : Nat)
    (h0 : 0 < i) (hi : i < bc.blocks.length) :
    ∃ b p : Block, bc.blocks[i] = some b ∧ bc.blocks[i - 1] = some p ∧
      b.PrevBlockHash = p.Hash :=
  Reachable_link h i h0 hi

/-- Witness of C2 on the chain of `main` after its first `AddBlock`. -/
theorem C2_reachable_chain_is_linked_witness :
    Reachable demoChain ∧ 0 < 1 ∧
      ∃ b p : Block, demoChain.blocks.get ⟨1, by decide⟩ = some b ∧
        demoChain.blocks.get ⟨0, by decide⟩ = some p ∧ b.PrevBlockHash = p.Hash :=
  ⟨demoChain_reachable, by decide,
    C2_reachable_chain_is_linked demoChain demoChain_reachable 1 (by decide) (by decide)⟩

/-- C3: for every clock reading `NewBlockchain()` is a chain of exactly one block,
whose `PrevBlockHash` is empty and whose `Data` is the bytes of "Genesis Block";
and in every chain reachable from it by `AddBlock` calls the block at index 0 is
still that block. -/
theorem C3_genesis_block (now : int64) :
    (NewBlockchain now).blocks.length = 1 ∧
    ∃ g : Block, (NewBlockchain now).blocks = [some g] ∧
      g.PrevBlockHash = [] ∧ g.Data = bytesOfString "Genesis Block" ∧
      ∀ bc, ReachableFrom (NewBlockchain now) bc →
        bc.blocks[0]? = some (some g) ∧
        bc.blocks.head?.map (Option.map Block.PrevBlockHash) = some (some []) := by
  refine ⟨rfl, NewGenesisBlock now, rfl, rfl, rfl, ?_⟩
  intro bc hr
  obtain ⟨rest, hrest⟩ := ReachableFrom_extends hr
  rw [hrest]
  show ([some (NewGenesisBlock now)] ++ rest)[0]? = some (some (NewGenesisBlock now)) ∧
    ([some (NewGenesisBlock now)] ++ rest).head?.map (Option.map Block.PrevBlockHash) =
      some (some [])
  simp only [List.singleton_append, List.getElem?_cons_zero, List.head?_cons, Option.map_some',
    true_and]
  rfl

/-- Witness of C3: block 0 of the chain of `main` after its first `AddBlock`. -/
theorem C3_genesis_block_witness :
    ReachableFrom (NewBlockchain clock0) demoChain ∧
      demoChain.blocks[0]? = some (some (NewGenesisBlock clock0)) := by
  obtain ⟨_, g, hg, _, _, hall⟩ := C3_genesis_block clock0
  have hstep : ReachableFrom (NewBlockchain clock0) demoChain :=
    ReachableFrom.step clock1 _ ReachableFrom.start demoChain_step
  refine ⟨hstep, ?_⟩
  have hg0 : g = NewGenesisBlock clock0 := by
    simp only [NewBlockchain, List.cons.injEq, Option.some.injEq, and_true] at hg
    exact hg.symm
  rw [← hg0]
  exact (hall demoChain hstep).1

/-- C4, as stated, fails: the chain whose only entry is the nil pointer is not
empty, yet `AddBlock` panics on it at `prevBlock.Hash` and returns no chain, so
there is no new last block. -/
theorem C4_AddBlock_nil_last_entry_counterexample :
    (Blockchain.mk [none]).blocks ≠ [] ∧
    (Blockchain.mk [none]).AddBlock clock1 (bytesOfString "Send 1 BTC to Ivan") =
      .error .nilDereference ∧
    ¬ ∀ (bc : Blockchain) (now : int64) (data : List byte), bc.blocks ≠ [] →
        ∃ bc1, bc.AddBlock now data = .ok bc1 ∧
          ∃ b p : Block, bc1.blocks.getLast? = some (some b) ∧
            bc.blocks.getLast? = some (some p) ∧
            b.PrevBlockHash = p.Hash ∧ b.Data = data := by
  refine ⟨by decide, rfl, ?_⟩
  intro hall
  obtain ⟨bc1, hok, _⟩ := hall (Blockchain.mk [none]) clock1 [] (by decide)
  rw [AddBlock_nil (Blockchain.mk [none]) clock1 [] rfl] at hok
  exact Except.noConfusion hok

/-- C4, amended: on every chain whose last entry is a (non-nil) block, `AddBlock(data)`
succeeds, and the new last block has `PrevBlockHash` equal to the `Hash` of the
block that was last before the call and `Data` equal to the bytes of `data`. -/
theorem C4_AddBlock_links_new_block (bc : Blockchain) (now : int64) (data : List byte)
    (p : Block) (hp : bc.blocks.getLast? = some (some p)) :
    ∃ bc1, bc.AddBlock now data = .ok bc1 ∧
      ∃ b : Block, bc1.blocks.getLast? = some (some b) ∧
        b.PrevBlockHash = p.Hash ∧ b.Data = data := by
  refine ⟨_, AddBlock_ok bc now data p hp, NewBlock now data p.Hash, ?_, rfl, rfl⟩
  simp only [List.getLast?_concat]

/-- Witness of C4: the first `AddBlock` of `main`, on the fresh chain. -/
theorem C4_AddBlock_links_new_block_witness :
    (NewBlockchain clock0).blocks.getLast? = some (some (NewGenesisBlock clock0)) ∧
    ∃ bc1, (NewBlockchain clock0).AddBlock clock1 (bytesOfString "Send 1 BTC to Ivan") = .ok bc1 ∧
      ∃ b : Block, bc1.blocks.getLast? = some (some b) ∧
        b.PrevBlockHash = (NewGenesisBlock clock0).Hash ∧
        b.Data = bytesOfString "Send 1 BTC to Ivan" :=
  ⟨rfl, C4_AddBlock_links_new_block (NewBlockchain clock0) clock1
    (bytesOfString "Send 1 BTC to Ivan") (NewGenesisBlock clock0) rfl⟩

/-- C5, as stated, fails: the chain made of the genesis block followed by a nil
pointer is not empty, yet `AddBlock` panics on it and the number of entries stays
2 instead of growing by one. -/
theorem C5_AddBlock_nil_last_entry_counterexample :
    (Blockchain.mk [some (NewGenesisBlock clock0), none]).blocks ≠ [] ∧
    (Blockchain.mk [some (NewGenesisBlock clock0), none]).AddBlock clock1
      (bytesOfString "Send 1 BTC to Ivan") = .error .nilDereference ∧
    ((Blockchain.mk [some (NewGenesisBlock clock0), none]).afterAddBlock clock1
      (bytesOfString "Send 1 BTC to Ivan")).blocks.length = 2 ∧
    ¬ ∀ (bc : Blockchain) (now : int64) (data : List byte), bc.blocks ≠ [] →
        ∃ bc1 newBlock, bc.AddBlock now data = .ok bc1 ∧
          bc1.blocks = bc.blocks ++ [newBlock] ∧
          bc1.blocks.length = bc.blocks.length + 1 := by
  refine ⟨by simp, rfl, rfl, ?_⟩
  intro hall
  obtain ⟨bc1, _, hok, _⟩ :=
    hall (Blockchain.mk [some (NewGenesisBlock clock0), none]) clock1 [] (by simp)
  rw [AddBlock_nil (Blockchain.mk [some (NewGenesisBlock clock0), none]) clock1 [] rfl] at hok
  exact Except.noConfusion hok

/-- C5, amended: on every chain whose last entry is a (non-nil) block, `AddBlock`
succeeds and the entries after the call are the entries before it followed by
exactly one new block: the length grows by one and every earlier entry stays at
its index, a block there keeping all four fields. -/
theorem C5_AddBlock_appends_one_block (bc : Blockchain) (now : int64) (data : List byte)
    (p : Block) (hp : bc.blocks.getLast? = some (some p)) :
    ∃ (bc1 : Blockchain) (newBlock : Block), bc.AddBlock now data = .ok bc1 ∧
      bc1.blocks = bc.blocks ++ [some newBlock] ∧
      bc1.blocks.length = bc.blocks.length + 1 ∧
      ∀ (i : Nat) (hi : i < bc.blocks.length),
        bc1.blocks[i]? = some bc.blocks[i] ∧
        ∀ old : Block, bc.blocks[i] = some old →
          ∃ b : Block, bc1.blocks[i]? = some (some b) ∧
            b.Timestamp = old.Timestamp ∧ b.Data = old.Data ∧
            b.PrevBlockHash = old.PrevBlockHash ∧ b.Hash = old.Hash := by
  refine ⟨_, NewBlock now data p.Hash, AddBlock_ok bc now data p hp, rfl, by simp, ?_⟩
  intro i hi
  have hget : (bc.blocks ++ [some (NewBlock now data p.Hash)])[i]? = some bc.blocks[i] := by
    rw [List.getElem?_append_left hi, List.getElem?_eq_getElem hi]
  refine ⟨hget, fun old hold => ⟨old, ?_, rfl, rfl, rfl, rfl⟩⟩
  show (bc.blocks ++ [some (NewBlock now data p.Hash)])[i]? = some (some old)
  rw [hget, hold]

/-- Witness of C5: the second `AddBlock` of `main`, on the chain of two blocks. -/
theorem C5_AddBlock_appends_one_block_witness :
    demoChain.blocks.getLast? =
      some (some (NewBlock clock1 (bytesOfString "Send 1 BTC to Ivan")
        (NewGenesisBlock clock0).Hash)) ∧
    ∃ (bc1 : Blockchain) (newBlock : Block),
      demoChain.AddBlock clock2 (bytesOfString "Send 2 more BTC to Ivan") = .ok bc1 ∧
      bc1.blocks = demoChain.blocks ++ [some newBlock] ∧ bc1.blocks.length = 3 := by
  obtain ⟨bc1, newBlock, h1, h2, h3, _⟩ :=
    C5_AddBlock_appends_one_block demoChain clock2 (bytesOfString "Send 2 more BTC to Ivan")
      (NewBlock clock1 (bytesOfString "Send 1 BTC to Ivan") (NewGenesisBlock clock0).Hash) rfl
  exact ⟨rfl, bc1, newBlock, h1, h2, h3⟩

/-- C6: every entry of every chain reachable from `NewBlockchain()` by `AddBlock`
calls is a block whose `Hash` equals the hash derivation of its own
`PrevBlockHash`, `Data` and `Timestamp`, and never the empty `Hash` the block was
allocated with. -/
theorem C6_reachable_blocks_carry_their_hash (bc : Blockchain) (h : Reachable bc) :
    ∀ e ∈ bc.blocks, ∃ b : Block, e = some b ∧
      b.Hash = sha256.Sum256 (b.PrevBlockHash ++ b.Data ++ decimalASCII b.Timestamp.val) ∧
      b.Hash = b.SetHash.Hash ∧ b.Hash ≠ [] := by
  intro e he
  obtain ⟨b, hb, hd⟩ := Reachable_hashes h e he
  rw [deriveHash] at hd
  refine ⟨b, hb, hd, ?_, ?_⟩
  · rw [SetHash_Hash, hd]
  · rw [hd]; exact Sum256_ne_nil _

/-- Witness of C6: the blocks of the chain of `main` after its first `AddBlock`. -/
theorem C6_reachable_blocks_carry_their_hash_witness :
    Reachable demoChain ∧
    ∀ e ∈ demoChain.blocks, ∃ b : Block, e = some b ∧
      b.Hash = sha256.Sum256 (b.PrevBlockHash ++ b.Data ++ decimalASCII b.Timestamp.val) ∧
      b.Hash = b.SetHash.Hash ∧ b.Hash ≠ [] :=
  ⟨demoChain_reachable, C6_reachable_blocks_carry_their_hash demoChain demoChain_reachable⟩

/-- C7: for every payload, every `prevBlockHash` (the empty one included) and every
clock reading, `NewBlock` returns a block whose `Timestamp` is the clock reading,
whose `Data` is the payload and whose `PrevBlockHash` is the given sequence, both
unchanged. -/
theorem C7_NewBlock_stores_its_arguments (now : int64) (data prevBlockHash : List byte) :
    ∃ b : Block, NewBlock now data prevBlockHash = b ∧
      b.Timestamp = now ∧ b.Data = data ∧ b.PrevBlockHash = prevBlockHash :=
  ⟨_, rfl, NewBlock_fields now data prevBlockHash⟩

/-- C8: every chain reachable from `NewBlockchain()` by `AddBlock` calls has at
least one block, so the index `len(blocks)-1` is in range, the entry read there is
a block, and `AddBlock` succeeds for every payload and clock reading. -/
theorem C8_reachable_chain_is_never_empty (bc : Blockchain) (h : Reachable bc) :
    1 ≤ bc.blocks.length ∧
    (0 ≤ (bc.blocks.length : Int) - 1 ∧ (bc.blocks.length : Int) - 1 < bc.blocks.length) ∧
    (∃ prevBlock : Block,
      index bc.blocks ((bc.blocks.length : Int) - 1) = .ok (some prevBlock)) ∧
    ∀ (now : int64) (data : List byte), ∃ bc1, bc.AddBlock now data = .ok bc1 := by
  have hne := Reachable_ne_nil h
  have hlen : 0 < bc.blocks.length := List.length_pos.mpr hne
  obtain ⟨b, hb, _⟩ := Reachable_hashes h _ (List.getLast_mem hne)
  have hlast : bc.blocks.getLast? = some (some b) := by
    rw [List.getLast?_eq_getLast _ hne, hb]
  exact ⟨hlen, ⟨by omega, by omega⟩, ⟨b, index_of_getLast hlast⟩,
    fun now data => ⟨_, AddBlock_ok bc now data b hlast⟩⟩

/-- Witness of C8: the chain of `main` after its first `AddBlock`. -/
theorem C8_reachable_chain_is_never_empty_witness :
    Reachable demoChain ∧ 1 ≤ demoChain.blocks.length ∧
    ∀ (now : int64) (data : List byte), ∃ bc1, demoChain.AddBlock now data = .ok bc1 :=
  ⟨demoChain_reachable,
    (C8_reachable_chain_is_never_empty demoChain demoChain_reachable).1,
    (C8_reachable_chain_is_never_empty demoChain demoChain_reachable).2.2.2⟩

/-- C9: for every `int64` timestamp the bytes `strconv.FormatInt` gives to the hash
are an optional `-` followed by one or more ASCII digits, the `-` is there exactly
when the value is negative, the digits have no leading zero (zero is the single
digit `0`), parsing the bytes as a decimal number gives the timestamp back, and
two timestamps with the same bytes are equal. -/
theorem C9_timestamp_string_is_canonical (t : int64) :
    (∃ ds : List byte,
      FormatInt t = (if t.val < 0 then [45] else []) ++ ds ∧ ds ≠ [] ∧
      (∀ c ∈ ds, 48 ≤ c.toNat ∧ c.toNat ≤ 57) ∧
      (ds.head? = some 48 → ds = [48] ∧ t.val = 0)) ∧
    (45 ∈ FormatInt t ↔ t.val < 0) ∧
    (t.val = 0 → FormatInt t = [48]) ∧
    parseDecimal (FormatInt t) = some t.val ∧
    ∀ t1 : int64, FormatInt t = FormatInt t1 → t = t1 := by
  have hdig := decimalDigits_isDigit t.val.natAbs
  have h45 : (45 : byte) ∉ decimalDigits t.val.natAbs := by
    intro hmem
    have := hdig _ hmem
    have e : (45 : UInt8).toNat = 45 := by decide
    omega
  refine ⟨⟨decimalDigits t.val.natAbs, ?_, decimalDigits_ne_nil _, hdig, ?_⟩, ?_, ?_, ?_, ?_⟩
  · rw [FormatInt_eq_decimalASCII, decimalASCII]
    split_ifs <;> rfl
  · intro hh
    obtain ⟨h0, hl⟩ := decimalDigits_head _ hh
    exact ⟨hl, by omega⟩
  · rw [FormatInt_eq_decimalASCII, decimalASCII]
    by_cases hneg : t.val < 0
    · simp [hneg]
    · simp [hneg, h45]
  · intro h0
    rw [FormatInt_eq_decimalASCII, decimalASCII, h0]
    decide
  · rw [FormatInt_eq_decimalASCII]; exact parseDecimal_decimalASCII _
  · intro t1 heq
    have h1 := parseDecimal_decimalASCII t.val
    have h2 := parseDecimal_decimalASCII t1.val
    rw [← FormatInt_eq_decimalASCII, heq, FormatInt_eq_decimalASCII, h2] at h1
    exact Subtype.ext (Option.some.inj h1).symm

/-- Witness of C9: the timestamp -1700000007 and the one of `clock1`. -/
theorem C9_timestamp_string_is_canonical_witness :
    FormatInt ⟨-1700000007, by decide⟩ = bytesOfString "-1700000007" ∧
    parseDecimal (bytesOfString "-1700000007") = some (-1700000007) ∧
    (FormatInt ⟨-1700000007, by decide⟩ = FormatInt ⟨-1700000007, by decide⟩ →
      (⟨-1700000007, by decide⟩ : int64) = ⟨-1700000007, by decide⟩) := by
  have h := C9_timestamp_string_is_canonical ⟨-1700000007, by decide⟩
  have e : FormatInt ⟨-1700000007, by decide⟩ = bytesOfString "-1700000007" := by decide
  refine ⟨e, ?_, fun heq => h.2.2.2.2 _ heq⟩
  rw [← e]
  exact h.2.2.2.1

/-- C10: the hash derivation depends only on `PrevBlockHash`, `Data` and
`Timestamp`: two blocks that agree on these three fields have equal `Hash` after
`SetHash`, whatever their `Hash` fields held before. -/
theorem C10_SetHash_depends_only_on_triple (b1 b2 : Block)
    (hp : b1.PrevBlockHash = b2.PrevBlockHash) (hd : b1.Data = b2.Data)
    (ht : b1.Timestamp = b2.Timestamp) :
    b1.SetHash.Hash = b2.SetHash.Hash ∧
    b1.SetHash.Hash = deriveHash b1.PrevBlockHash b1.Data b1.Timestamp.val := by
  constructor
  · rw [SetHash_Hash, SetHash_Hash, hp, hd, ht]
  · rw [SetHash_Hash, deriveHash]

/-- Witness of C10: two blocks with the same triple and different earlier `Hash`. -/
theorem C10_SetHash_depends_only_on_triple_witness :
    (Block.mk clock0 [1, 2] [3] []).Hash ≠ (Block.mk clock0 [1, 2] [3] [9, 9]).Hash ∧
    (Block.mk clock0 [1, 2] [3] []).SetHash.Hash =
      (Block.mk clock0 [1, 2] [3] [9, 9]).SetHash.Hash :=
  ⟨by decide, (C10_SetHash_depends_only_on_triple _ _ rfl rfl rfl).1⟩

/-! ## The digest and the hashed bytes -/

theorem SetHash_Hash_headers (b : Block) : b.SetHash.Hash = sha256.Sum256 b.headers :=
  rfl

theorem headers_eq (b : Block) :
    b.headers = b.PrevBlockHash ++ b.Data ++ FormatInt b.Timestamp := by
  simp [Block.headers, Join]

theorem FormatInt_injective {t1 t2 : int64} (h : FormatInt t1 = FormatInt t2) : t1 = t2 := by
  have h1 := parseDecimal_decimalASCII t1.val
  have h2 := parseDecimal_decimalASCII t2.val
  rw [← FormatInt_eq_decimalASCII, h, FormatInt_eq_decimalASCII, h2] at h1
  exact Subtype.ext (Option.some.inj h1).symm

theorem Reachable_hash_length {bc : Blockchain} (h : Reachable bc) :
    ∀ e ∈ bc.blocks, ∃ b : Block, e = some b ∧ b.Hash.length = 32 := by
  intro e he
  obtain ⟨b, hb, hd⟩ := Reachable_hashes h e he
  refine ⟨b, hb, ?_⟩
  rw [hd, deriveHash]
  exact Sum256_length _

/-- C11: for every block the `Hash` stored by `SetHash` is the SHA-256 digest of the
hashed bytes as it is, 32 bytes long; so is the `Hash` of every block returned by
`NewBlock` and of every block of a reachable chain. -/
theorem C11_hash_is_32_bytes :
    (∀ b : Block, b.SetHash.Hash = sha256.Sum256 b.headers ∧ b.SetHash.Hash.length = 32) ∧
    (∀ (now : int64) (data prevBlockHash : List byte),
      (NewBlock now data prevBlockHash).Hash.length = 32) ∧
    (∀ bc : Blockchain, Reachable bc →
      ∀ e ∈ bc.blocks, ∃ b : Block, e = some b ∧ b.Hash.length = 32) := by
  refine ⟨fun b => ⟨rfl, ?_⟩, fun now data prevBlockHash => ?_, fun bc h => Reachable_hash_length h⟩
  · rw [SetHash_Hash_headers]; exact Sum256_length _
  · rw [NewBlock_Hash, deriveHash]; exact Sum256_length _

/-- Witness of C11: the blocks of the chain of `main` after its first `AddBlock`. -/
theorem C11_hash_is_32_bytes_witness :
    Reachable demoChain ∧
      ∀ e ∈ demoChain.blocks, ∃ b : Block, e = some b ∧ b.Hash.length = 32 :=
  ⟨demoChain_reachable, C11_hash_is_32_bytes.2.2 demoChain demoChain_reachable⟩

/-- C12: for every `PrevBlockHash`, every `Data` and every two distinct timestamps
the byte sequences that are hashed differ, so the two blocks that `NewBlock` builds
have different `Hash` values whenever SHA-256 does not collide on those two
sequences. -/
theorem C12_distinct_timestamps_distinct_preimages (prevBlockHash data : List byte)
    (t1 t2 : int64) (hne : t1 ≠ t2) :
    (NewBlock t1 data prevBlockHash).headers ≠ (NewBlock t2 data prevBlockHash).headers ∧
    ((sha256.Sum256 (NewBlock t1 data prevBlockHash).headers =
        sha256.Sum256 (NewBlock t2 data prevBlockHash).headers →
      (NewBlock t1 data prevBlockHash).headers = (NewBlock t2 data prevBlockHash).headers) →
      (NewBlock t1 data prevBlockHash).Hash ≠ (NewBlock t2 data prevBlockHash).Hash) := by
  have hpre : (NewBlock t1 data prevBlockHash).headers ≠
      (NewBlock t2 data prevBlockHash).headers := by
    rw [headers_eq, headers_eq]
    intro h
    exact hne (FormatInt_injective (List.append_cancel_left h))
  refine ⟨hpre, fun hnc hh => hpre (hnc ?_)⟩
  exact hh

/-- Witness of C12: the genesis payload at the clock readings `clock0` and `clock1`. -/
theorem C12_distinct_timestamps_distinct_preimages_witness :
    clock0 ≠ clock1 ∧
    (NewBlock clock0 (bytesOfString "Genesis Block") []).headers ≠
      (NewBlock clock1 (bytesOfString "Genesis Block") []).headers ∧
    (NewBlock clock0 (bytesOfString "Genesis Block") []).Hash ≠
      (NewBlock clock1 (bytesOfString "Genesis Block") []).Hash := by
  have h := C12_distinct_timestamps_distinct_preimages [] (bytesOfString "Genesis Block")
    clock0 clock1 (by decide)
  exact ⟨by decide, h.1, h.2 (by decide)⟩

/-! ## Sequences of `AddBlock` calls -/

theorem ReachableFrom_trans {a b c : Blockchain} (hab : ReachableFrom a b)
    (hbc : ReachableFrom b c) : ReachableFrom a c := by
  induction hbc with
  | start => exact hab
  | step now data _ hadd ih => exact ReachableFrom.step now data ih hadd

/-- On a chain whose last entry is a block a sequence of calls runs to its end, and
appends one block per call, carrying the payload and the clock reading of that
call. -/
theorem AddBlocks_spec (calls : List (int64 × List byte)) :
    ∀ (bc : Blockchain) (p : Block), bc.blocks.getLast? = some (some p) →
      ∃ (bc1 : Blockchain) (rest : List Block),
        AddBlocks bc calls = .ok bc1 ∧ ReachableFrom bc bc1 ∧
        bc1.blocks = bc.blocks ++ rest.map some ∧
        rest.map (fun b => (b.Timestamp, b.Data)) = calls := by
  induction calls with
  | nil => intro bc p _; exact ⟨bc, [], rfl, ReachableFrom.start, by simp, rfl⟩
  | cons c calls ih =>
    intro bc p hp
    obtain ⟨now, data⟩ := c
    have hadd := AddBlock_ok bc now data p hp
    obtain ⟨bc1, rest, hrun, hreach, hblocks, hmap⟩ :=
      ih { blocks := bc.blocks ++ [some (NewBlock now data p.Hash)] } (NewBlock now data p.Hash)
        (by simp only [List.getLast?_concat])
    refine ⟨bc1, NewBlock now data p.Hash :: rest, ?_, ?_, ?_, ?_⟩
    · simp only [AddBlocks, hadd]; exact hrun
    · exact ReachableFrom_trans (ReachableFrom.step now data ReachableFrom.start hadd) hreach
    · rw [hblocks]; simp
    · simp only [List.map_cons, hmap]
      rfl

/-- C13: for every list of payloads, the calls `AddBlock(p1)`, ..., `AddBlock(pn)` in
that order on a fresh `NewBlockchain()` run to the end and give a chain of exactly
`n + 1` blocks whose block 0 is the genesis block and whose block `i`, for every
`1 ≤ i ≤ n`, has the bytes of `pi` as `Data` and the `Hash` of block `i - 1` as
`PrevBlockHash`. -/
theorem C13_insertion_order_is_chain_order (now0 : int64)
    (calls : List (int64 × List byte)) :
    ∃ bc, AddBlocks (NewBlockchain now0) calls = .ok bc ∧
      bc.blocks.length = calls.length + 1 ∧
      bc.blocks[0]? = some (some (NewGenesisBlock now0)) ∧
      ∀ i : Nat, 1 ≤ i → i ≤ calls.length →
        ∃ (b p : Block) (c : int64 × List byte),
          bc.blocks[i]? = some (some b) ∧ bc.blocks[i - 1]? = some (some p) ∧
          calls[i - 1]? = some c ∧ b.Data = c.2 ∧ b.PrevBlockHash = p.Hash := by
  obtain ⟨bc, rest, hrun, hreach, hblocks, hmap⟩ :=
    AddBlocks_spec calls (NewBlockchain now0) (NewGenesisBlock now0) rfl
  have hlen : bc.blocks.length = calls.length + 1 := by
    rw [hblocks, ← hmap]; simp [NewBlockchain]
  refine ⟨bc, hrun, hlen, ?_, ?_⟩
  · rw [hblocks]; simp [NewBlockchain]
  · intro i h1 hi
    have hi1 : i < bc.blocks.length := by omega
    have hc : i - 1 < calls.length := by omega
    have hr : i - 1 < rest.length := by rw [← hmap] at hc; simpa using hc
    obtain ⟨b, p, hb, hp, hlink⟩ := Reachable_link ⟨now0, hreach⟩ i h1 hi1
    have hb1 : bc.blocks[i]? = some (some b) := by
      rw [List.getElem?_eq_getElem hi1, hb]
    have hp1 : bc.blocks[i - 1]? = some (some p) := by
      rw [List.getElem?_eq_getElem (by omega), hp]
    have hrest : b = rest[i - 1] := by
      have e : bc.blocks[i]? = (rest.map some)[i - 1]? := by
        rw [hblocks]
        show ([some (NewGenesisBlock now0)] ++ rest.map some)[i]? = (rest.map some)[i - 1]?
        rw [List.getElem?_append_right (by simpa using h1)]
        rfl
      rw [hb1, List.getElem?_map, List.getElem?_eq_getElem hr] at e
      exact Option.some.inj (Option.some.inj e)
    have hcall : calls[i - 1] = (rest[i - 1].Timestamp, rest[i - 1].Data) := by
      have e : calls[i - 1]? = (rest.map (fun b => (b.Timestamp, b.Data)))[i - 1]? := by
        rw [hmap]
      rw [List.getElem?_eq_getElem hc, List.getElem?_map, List.getElem?_eq_getElem hr] at e
      exact Option.some.inj e
    refine ⟨b, p, calls[i - 1], hb1, hp1, List.getElem?_eq_getElem hc, ?_, hlink⟩
    rw [hrest, hcall]

/-- Witness of C13: the two `AddBlock` calls of `main`. -/
theorem C13_insertion_order_is_chain_order_witness :
    ∃ bc, AddBlocks (NewBlockchain clock0)
        [(clock1, bytesOfString "Send 1 BTC to Ivan"),
         (clock2, bytesOfString "Send 2 more BTC to Ivan")] = .ok bc ∧
      bc.blocks.length = 3 ∧
      ∃ b p : Block, bc.blocks[2]? = some (some b) ∧ bc.blocks[1]? = some (some p) ∧
        b.Data = bytesOfString "Send 2 more BTC to Ivan" ∧ b.PrevBlockHash = p.Hash := by
  obtain ⟨bc, hrun, hlen, _, hall⟩ := C13_insertion_order_is_chain_order clock0
    [(clock1, bytesOfString "Send 1 BTC to Ivan"),
     (clock2, bytesOfString "Send 2 more BTC to Ivan")]
  obtain ⟨b, p, c, hb, hp, hc, hdata, hlink⟩ := hall 2 (by decide) (by decide)
  refine ⟨bc, hrun, hlen, b, p, hb, hp, ?_, hlink⟩
  have hc2 : c = (clock2, bytesOfString "Send 2 more BTC to Ivan") := by
    simpa using hc.symm
  rw [hdata, hc2]

/-! ## Colliding triples, the empty chain, and repeated `SetHash` -/

theorem SetHash_eq_self_of_Hash {b : Block} (h : b.Hash = b.SetHash.Hash) : b.SetHash = b := by
  obtain ⟨t, d, p, hash⟩ := b
  simp only [Block.SetHash] at h ⊢
  rw [← h]

theorem SetHash_idempotent (b : Block) : b.SetHash.SetHash = b.SetHash :=
  SetHash_eq_self_of_Hash rfl

/-- C14: the hashed bytes do not determine the triple. Moving the last byte of
`PrevBlockHash` to the front of `Data`, or the trailing digit `1` of `Data` to the
front of the timestamp (2 becomes 12), gives a different triple with exactly the
same `Hash` after `SetHash`; so two different triples with equal `Hash` exist. -/
theorem C14_different_triples_same_hash :
    (∀ (t : int64) (prev data : List byte) (c : byte) (h1 h2 : List byte),
      (prev ++ [c], data, t) ≠ (prev, c :: data, t) ∧
      (Block.mk t data (prev ++ [c]) h1).SetHash.Hash =
        (Block.mk t (c :: data) prev h2).SetHash.Hash) ∧
    (∀ (prev data h1 h2 : List byte),
      (prev, data ++ [49], (⟨2, by decide⟩ : int64)) ≠ (prev, data, ⟨12, by decide⟩) ∧
      (Block.mk ⟨2, by decide⟩ (data ++ [49]) prev h1).SetHash.Hash =
        (Block.mk ⟨12, by decide⟩ data prev h2).SetHash.Hash) ∧
    ∃ b1 b2 : Block,
      (b1.PrevBlockHash, b1.Data, b1.Timestamp) ≠ (b2.PrevBlockHash, b2.Data, b2.Timestamp) ∧
      b1.SetHash.Hash = b2.SetHash.Hash := by
  have move : ∀ (t : int64) (prev data : List byte) (c : byte) (h1 h2 : List byte),
      (prev ++ [c], data, t) ≠ (prev, c :: data, t) ∧
      (Block.mk t data (prev ++ [c]) h1).SetHash.Hash =
        (Block.mk t (c :: data) prev h2).SetHash.Hash := by
    intro t prev data c h1 h2
    constructor
    · intro h
      have hl := congrArg List.length (Prod.mk.inj h).1
      simp at hl
    · rw [SetHash_Hash_headers, SetHash_Hash_headers, headers_eq, headers_eq]
      simp
  refine ⟨move, ?_, ?_⟩
  · intro prev data h1 h2
    constructor
    · intro h
      have ht := congrArg (fun x : int64 => x.val) (Prod.mk.inj (Prod.mk.inj h).2).2
      simp at ht
    · rw [SetHash_Hash_headers, SetHash_Hash_headers, headers_eq, headers_eq]
      have e2 : FormatInt ⟨2, by decide⟩ = [50] := by decide
      have e12 : FormatInt ⟨12, by decide⟩ = [49, 50] := by decide
      simp only [e2, e12]
      simp
  · exact ⟨Block.mk clock0 [] [7] [], Block.mk clock0 [7] [] [], (move clock0 [] [] 7 [] []).1,
      (move clock0 [] [] 7 [] []).2⟩

/-- C15: on a `Blockchain` whose block list is empty, such as the zero value
`Blockchain{}`, `AddBlock` panics for every payload with an index out of range at
the read of `blocks[len(blocks)-1]`, returns no chain, and leaves the block list
empty. -/
theorem C15_AddBlock_panics_on_empty_chain (bc : Blockchain) (now : int64) (data : List byte)
    (h : bc.blocks = []) :
    index bc.blocks ((bc.blocks.length : Int) - 1) = .error (.indexOutOfRange (-1) 0) ∧
    bc.AddBlock now data = .error (.indexOutOfRange (-1) 0) ∧
    (¬ ∃ bc1, bc.AddBlock now data = .ok bc1) ∧
    bc.afterAddBlock now data = bc ∧ (bc.afterAddBlock now data).blocks = [] := by
  have hidx : index bc.blocks ((bc.blocks.length : Int) - 1) =
      .error (.indexOutOfRange (-1) 0) := by
    rw [h, index_nil]; rfl
  have hadd : bc.AddBlock now data = .error (.indexOutOfRange (-1) 0) :=
    AddBlock_empty bc now data h
  refine ⟨hidx, hadd, ?_, ?_, ?_⟩
  · rintro ⟨bc1, h1⟩
    rw [hadd] at h1
    exact Except.noConfusion h1
  · simp only [Blockchain.afterAddBlock, hadd]
  · simp only [Blockchain.afterAddBlock, hadd, h]

/-- Witness of C15: the zero value `Blockchain{}` and the first payload of `main`. -/
theorem C15_AddBlock_panics_on_empty_chain_witness :
    (Blockchain.mk []).blocks = [] ∧
    (Blockchain.mk []).AddBlock clock0 (bytesOfString "Send 1 BTC to Ivan") =
      .error (.indexOutOfRange (-1) 0) ∧
    (Blockchain.mk []).afterAddBlock clock0 (bytesOfString "Send 1 BTC to Ivan") =
      Blockchain.mk [] :=
  ⟨rfl,
    (C15_AddBlock_panics_on_empty_chain (Blockchain.mk []) clock0
      (bytesOfString "Send 1 BTC to Ivan") rfl).2.1,
    (C15_AddBlock_panics_on_empty_chain (Blockchain.mk []) clock0
      (bytesOfString "Send 1 BTC to Ivan") rfl).2.2.2.1⟩

/-- C16: `SetHash` leaves `Timestamp`, `Data` and `PrevBlockHash` of every block
unchanged, a second `SetHash` changes nothing more, and `SetHash` on a block
returned by `NewBlock` or on a block of a reachable chain leaves the whole block,
`Hash` included, unchanged. -/
theorem C16_SetHash_writes_only_Hash :
    (∀ b : Block, b.SetHash.Timestamp = b.Timestamp ∧ b.SetHash.Data = b.Data ∧
      b.SetHash.PrevBlockHash = b.PrevBlockHash ∧ b.SetHash.SetHash = b.SetHash) ∧
    (∀ (now : int64) (data prevBlockHash : List byte),
      (NewBlock now data prevBlockHash).SetHash = NewBlock now data prevBlockHash) ∧
    (∀ bc : Blockchain, Reachable bc →
      ∀ e ∈ bc.blocks, ∃ b : Block, e = some b ∧ b.SetHash = b) := by
  refine ⟨fun b => ⟨rfl, rfl, rfl, SetHash_idempotent b⟩, fun now data prevBlockHash => ?_,
    fun bc h e he => ?_⟩
  · exact SetHash_idempotent _
  · obtain ⟨b, hb, hd⟩ := Reachable_hashes h e he
    refine ⟨b, hb, SetHash_eq_self_of_Hash ?_⟩
    rw [SetHash_Hash, hd, deriveHash]

/-- Witness of C16: the blocks of the chain of `main` after its first `AddBlock`. -/
theorem C16_SetHash_writes_only_Hash_witness :
    Reachable demoChain ∧ ∀ e ∈ demoChain.blocks, ∃ b : Block, e = some b ∧ b.SetHash = b :=
  ⟨demoChain_reachable, C16_SetHash_writes_only_Hash.2.2 demoChain demoChain_reachable⟩

end SimpleVersion
